import Mathlib

/-!
Verification of the rust-ascii crate against its natural-language
specification.  The Rust sources are shallowly embedded: `u8` values are
modelled as `Nat` (with explicit `% 256` where wrapping matters), byte
slices and vectors as `List Nat`, fallible operations as `Except`／`Option`,
and the two double-ended iterators (`Split`, `Lines`) as explicit state
machines with `next`／`next_back` step functions.
-/

namespace RustAscii

/-- Models `u8::wrapping_sub` for arguments below 256: subtraction modulo 256. -/
def wrappingSub (a b : Nat) : Nat := (a + 256 - b % 256) % 256

/-- Translated from std `AsciiExt for [u8]`／`u8::is_ascii` (a dependency of the
crate): every byte is at most 127. -/
def allAscii (s : List Nat) : Bool := s.all (fun b => b ≤ 127)

/-! ### ascii_char.rs : the `AsciiChar` enum

The enum has exactly the 128 discriminants 0..=127; its values are modelled by
the discriminant byte.  `as_byte` is `*self as u8`, i.e. the identity on the
stored byte. -/

/-- Translated from `impl ToAsciiChar for u8`: `to_ascii_char` succeeds iff
`self <= 0x7F`; the unchecked variant is `transmute`, which keeps the byte. -/
def u8_to_ascii_char (b : Nat) : Except Unit Nat :=
  if b ≤ 0x7F then .ok b else .error ()

/-- Translated from `impl ToAsciiChar for char`: compares `self as u32` with
`0x7F` and casts with `as u8` (reduction modulo 256) on success. -/
def char_to_ascii_char (c : Nat) : Except Unit Nat :=
  if c ≤ 0x7F then .ok (c % 256) else .error ()

/-- Translated from std `u8::to_ascii_uppercase` (used by
`AsciiChar::to_ascii_uppercase`): map bytes 97..=122 down by 32. -/
def to_ascii_uppercase (b : Nat) : Nat :=
  if 97 ≤ b ∧ b ≤ 122 then b - 32 else b

/-- Translated from std `u8::to_ascii_lowercase` (used by
`AsciiChar::to_ascii_lowercase`): map bytes 65..=90 up by 32. -/
def to_ascii_lowercase (b : Nat) : Nat :=
  if 65 ≤ b ∧ b ≤ 90 then b + 32 else b

/-- Translated from `AsciiChar::is_blank`: space or horizontal tab. -/
def is_blank (b : Nat) : Bool := b == 32 || b == 9

/-- Translated from `AsciiChar::is_whitespace`: blank, line feed or carriage
return. -/
def is_whitespace (b : Nat) : Bool := is_blank b || b == 10 || b == 13

/-- Translated from `AsciiChar::is_graph`:
`self.as_byte().wrapping_sub(b' '+1) < 0x5E`. -/
def asciiChar_is_graph (b : Nat) : Bool := wrappingSub b 33 < 0x5E

/-- Translated from `AsciiChar::is_print`:
`self.as_byte().wrapping_sub(b' ') < 0x5F`. -/
def asciiChar_is_print (b : Nat) : Bool := wrappingSub b 32 < 0x5F

/-! ### ascii.rs : the newer `Ascii` wrapper (wrapping subtraction) -/

/-- Translated from ascii.rs `Ascii::is_graph`:
`self.chr.wrapping_sub(0x21) < 0x5E`. -/
def asciiWrapper_is_graph (b : Nat) : Bool := wrappingSub b 0x21 < 0x5E

/-- Translated from ascii.rs `Ascii::is_print`:
`self.chr.wrapping_sub(0x20) < 0x5F`. -/
def asciiWrapper_is_print (b : Nat) : Bool := wrappingSub b 0x20 < 0x5F

/-! ### lib.rs : the older `Ascii` wrapper (plain subtraction)

lib.rs computes `(self.chr - 0x21) < 0x5E` with the ordinary `u8`
subtraction operator.  In Rust that subtraction is an arithmetic-overflow
error when the right operand exceeds the left (a panic in debug builds);
the checked model returns `none` in exactly that case and the wrapped
release-mode result otherwise. -/

/-- Translated from lib.rs `Ascii::is_graph`: `(self.chr - 0x21) < 0x5E` with
plain `u8` subtraction; `none` models the debug-build underflow panic. -/
def lib_is_graph (b : Nat) : Option Bool :=
  if b < 0x21 then none else some (decide (b - 0x21 < 0x5E))

/-- Translated from lib.rs `Ascii::is_print`: `(self.chr - 0x20) < 0x5F` with
plain `u8` subtraction; `none` models the debug-build underflow panic. -/
def lib_is_print (b : Nat) : Option Bool :=
  if b < 0x20 then none else some (decide (b - 0x20 < 0x5F))

/-! ### ascii_str.rs : validation of byte slices and `str` -/

/-- Translated from ascii_str.rs `pub struct AsAsciiStrError(usize)` with its
`valid_up_to` accessor. -/
structure AsAsciiStrError where
  valid_up_to : Nat
deriving DecidableEq

/-- Translated from `impl AsAsciiStr for [u8]`: scan with
`iter().position(|b| b > 127)`; on a hit return the index as the error, else
reinterpret the same bytes (`as_ascii_str_unchecked` is a pointer cast, so the
underlying bytes are unchanged). -/
def slice_as_ascii_str (s : List Nat) : Except AsAsciiStrError (List Nat) :=
  match s.findIdx? (fun b => 127 < b) with
  | some index => .error ⟨index⟩
  | none => .ok s

/-- Translated from `impl AsAsciiStr for str`: `self.as_bytes().as_ascii_str()`,
operating on the string's UTF-8 bytes. -/
def str_as_ascii_str (s : List Nat) : Except AsAsciiStrError (List Nat) :=
  slice_as_ascii_str s

/-- Translated from `AsciiStr::from_ascii`: `bytes.as_ref().as_ascii_str()`. -/
def asciiStr_from_ascii (s : List Nat) : Except AsAsciiStrError (List Nat) :=
  slice_as_ascii_str s

/-- Translated from `AsciiStr::as_bytes`: a pointer cast back to `[u8]`, which
exposes exactly the stored bytes. -/
def asciiStr_as_bytes (s : List Nat) : List Nat := s

/-- Translated from `AsciiStr::trim_start`:
`&self[self.chars().take_while(is_whitespace).count()..]`. -/
def trim_start (s : List Nat) : List Nat :=
  s.drop (s.takeWhile is_whitespace).length

/-- Translated from `AsciiStr::trim_end`:
count whitespace from the back, then `&self[..self.len() - trimmed]`. -/
def trim_end (s : List Nat) : List Nat :=
  s.take (s.length - (s.reverse.takeWhile is_whitespace).length)

/-- Translated from `AsciiStr::trim`: `self.trim_start().trim_end()`. -/
def trim (s : List Nat) : List Nat := trim_end (trim_start s)

/-- Standard UTF-8 decoding of the first code point of a byte sequence
(`str` stores UTF-8; decoding itself lives in std, outside this crate, and is
modelled from the UTF-8 standard).  Used only to compare the characters that
produced the bytes at a validation-error position. -/
def utf8FirstCodepoint : List Nat → Option Nat
  | [] => none
  | b0 :: rest =>
    if b0 < 0x80 then some b0
    else if 0xC2 ≤ b0 ∧ b0 < 0xE0 then
      match rest with
      | b1 :: _ =>
        if 0x80 ≤ b1 ∧ b1 < 0xC0 then some ((b0 - 0xC0) * 64 + (b1 - 0x80))
        else none
      | [] => none
    else if 0xE0 ≤ b0 ∧ b0 < 0xF0 then
      match rest with
      | b1 :: b2 :: _ =>
        if 0x80 ≤ b1 ∧ b1 < 0xC0 ∧ 0x80 ≤ b2 ∧ b2 < 0xC0 then
          some ((b0 - 0xE0) * 4096 + (b1 - 0x80) * 64 + (b2 - 0x80))
        else none
      | _ => none
    else if 0xF0 ≤ b0 ∧ b0 < 0xF5 then
      match rest with
      | b1 :: b2 :: b3 :: _ =>
        if 0x80 ≤ b1 ∧ b1 < 0xC0 ∧ 0x80 ≤ b2 ∧ b2 < 0xC0 ∧ 0x80 ≤ b3 ∧ b3 < 0xC0 then
          some ((b0 - 0xF0) * 262144 + (b1 - 0x80) * 4096 + (b2 - 0x80) * 64 + (b3 - 0x80))
        else none
      | _ => none
    else none

/-! ### ascii_string.rs : the owned buffer -/

/-- Translated from `AsciiString::from_ascii_unchecked`: `Vec::from_raw_parts`
reinterpreting the same allocation, so the stored bytes are unchanged. -/
def asciiString_from_ascii_unchecked (bytes : List Nat) : List Nat := bytes

/-- Translated from `AsciiString::from_ascii`: if `bytes.as_ref().is_ascii()`
take ownership via `from_ascii_unchecked`, otherwise return `Err(bytes)` with
the untouched input buffer. -/
def asciiString_from_ascii (bytes : List Nat) : Except (List Nat) (List Nat) :=
  if allAscii bytes then .ok (asciiString_from_ascii_unchecked bytes)
  else .error bytes

/-- Translated from `impl Into<Vec<u8>> for AsciiString`: reinterpret the same
allocation as bytes. -/
def asciiString_into_bytes (s : List Nat) : List Nat := s

/-- Translated from `AsciiString::push`: `self.vec.push(ch)`. -/
def asciiString_push (s : List Nat) (c : Nat) : List Nat := s ++ [c]

/-- Translated from `AsciiString::push_str`: extend with the other string's
characters. -/
def asciiString_push_str (s t : List Nat) : List Nat := s ++ t

/-- Translated from `AsciiString::insert`: `self.vec.insert(idx, ch)`. -/
def asciiString_insert (s : List Nat) (idx : Nat) (c : Nat) : List Nat :=
  s.insertIdx idx c

/-! ### ffi/ascii_c_str.rs : `AsciiCStr::from_bytes_with_nul` -/

/-- Translated from ffi/ascii_c_str.rs `FromBytesWithNulErrorKind`. -/
inductive FromBytesWithNulErrorKind where
  | interiorNul
  | notNulTerminated
  | notAscii
deriving DecidableEq

/-- Translated from ffi/ascii_c_str.rs `FromBytesWithNulError` with its `kind`
and position (`valid_up_to`) fields. -/
structure FromBytesWithNulError where
  kind : FromBytesWithNulErrorKind
  pos : Nat
deriving DecidableEq

/-- Models `memchr::memchr(0, bytes)`: index of the first occurrence. -/
def memchr (b : Nat) (l : List Nat) : Option Nat :=
  l.findIdx? (fun x => x == b)

/-- Translated from `AsciiCStr::from_bytes_with_nul`: find the first nul; if it
is not the final byte report `InteriorNul` at its position; otherwise scan the
whole slice for a byte above 127 and report `NotAscii` at its index; with no
nul at all report `NotNulTerminated` carrying the length. -/
def from_bytes_with_nul (bytes : List Nat) :
    Except FromBytesWithNulError (List Nat) :=
  match memchr 0 bytes with
  | some nul_pos =>
    if nul_pos + 1 ≠ bytes.length then
      .error ⟨.interiorNul, nul_pos⟩
    else
      match bytes.findIdx? (fun b => 127 < b) with
      | some index => .error ⟨.notAscii, index⟩
      | none => .ok bytes
  | none => .error ⟨.notNulTerminated, bytes.length⟩

/-! ### ascii_str.rs : the `Split` double-ended iterator

`Split` holds the separator, an `ended` flag, and a `Chars` iterator; the
remaining characters of that iterator are the `rem` field here. -/

/-- Models `DoubleEndedIterator::rposition`: the index (from the front) of the
last element satisfying the predicate. -/
def rfindIdx? (p : Nat → Bool) (l : List Nat) : Option Nat :=
  match l.reverse.findIdx? p with
  | some k => some (l.length - 1 - k)
  | none => none

/-- Translated from ascii_str.rs `struct Split`: separator, `ended` flag and
the remaining characters of the inner `Chars` iterator. -/
structure SplitSt where
  sep : Nat
  ended : Bool
  rem : List Nat
deriving DecidableEq

/-- Translated from `Split::next`: if not ended, `position` the separator in
the remaining characters; on a hit yield the prefix before it (the iterator
has consumed through the separator), otherwise yield everything left and set
`ended`. -/
def splitNext (st : SplitSt) : Option (List Nat × SplitSt) :=
  if st.ended then none
  else
    match st.rem.findIdx? (fun c => c == st.sep) with
    | some i => some (st.rem.take i, ⟨st.sep, false, st.rem.drop (i + 1)⟩)
    | none => some (st.rem, ⟨st.sep, true, []⟩)

/-- Translated from `Split::next_back`: if not ended, `rposition` the
separator; on a hit yield the suffix after it (the iterator has consumed from
the back through the separator), otherwise yield everything left and set
`ended`. -/
def splitNextBack (st : SplitSt) : Option (List Nat × SplitSt) :=
  if st.ended then none
  else
    match rfindIdx? (fun c => c == st.sep) st.rem with
    | some i => some (st.rem.drop (i + 1), ⟨st.sep, false, st.rem.take i⟩)
    | none => some (st.rem, ⟨st.sep, true, []⟩)

/-- Forward iteration of `Split::next` from a non-ended state, written with
explicit fuel so that it is structurally recursive; `splitF` supplies enough
fuel. -/
def splitLoop (sep : Nat) : Nat → List Nat → List (List Nat)
  | 0, _ => []
  | fuel + 1, rem =>
    match rem.findIdx? (fun c => c == sep) with
    | some i => rem.take i :: splitLoop sep fuel (rem.drop (i + 1))
    | none => [rem]

/-- The full forward sequence of `AsciiStr::split(on)` over `s`. -/
def splitF (sep : Nat) (s : List Nat) : List (List Nat) :=
  splitLoop sep (s.length + 1) s

/-- The forward sequence still to be produced by a `Split` iterator state. -/
def pendingS (st : SplitSt) : List (List Nat) :=
  if st.ended then [] else splitF st.sep st.rem

/-! ### ascii_str.rs : the `Lines` double-ended iterator

`Lines` holds just the remaining string slice. -/

/-- Translated from `Lines::next`: find the first line feed; yield the bytes
before it, additionally dropping an immediately preceding carriage return, and
continue after the line feed.  With no line feed, a non-empty rest is yielded
as the final line and an empty rest ends the iteration. -/
def linesNext (s : List Nat) : Option (List Nat × List Nat) :=
  match s.findIdx? (fun c => c == 10) with
  | some idx =>
    some
      (if 0 < idx ∧ s[idx - 1]? = some 13 then s.take (idx - 1) else s.take idx,
       s.drop (idx + 1))
  | none => if s.isEmpty then none else some (s, [])

/-- Translated from the backward scan in `Lines::next_back`:
`while i > 0 && string[i-1] != LineFeed { i -= 1 }`. -/
def scanBackLF (t : List Nat) : Nat → Nat
  | 0 => 0
  | i + 1 => if t[i]? = some 10 then i + 1 else scanBackLF t i

/-- Translated from `Lines::next_back`: on a non-empty slice, first strip one
trailing line feed together with a carriage return immediately before it, then
scan backwards to the previous line feed; yield the bytes after it and keep
the bytes up to and including it. -/
def linesNextBack (s : List Nat) : Option (List Nat × List Nat) :=
  if s.isEmpty then none
  else
    let i0 := s.length
    let i1 :=
      if s[i0 - 1]? = some 10 then
        if 0 < i0 - 1 ∧ s[i0 - 2]? = some 13 then i0 - 2 else i0 - 1
      else i0
    let t := s.take i1
    let j := scanBackLF t i1
    some (t.drop j, t.take j)

/-- Forward iteration of `Lines::next`, written with explicit fuel so that it
is structurally recursive; `linesF` supplies enough fuel. -/
def linesLoop : Nat → List Nat → List (List Nat)
  | 0, _ => []
  | fuel + 1, s =>
    match linesNext s with
    | some (line, rest) => line :: linesLoop fuel rest
    | none => []

/-- The full forward sequence of `AsciiStr::lines()` over `s`. -/
def linesF (s : List Nat) : List (List Nat) :=
  linesLoop (s.length + 1) s

/-! ### Generic double-ended consumption

`runDirs` consumes an iterator state through an arbitrary interleaving of
front (`true`) and back (`false`) calls, collecting the front emissions, the
back emissions in emission order, and the final state. -/

def runDirs {M A : Type} (next nextBack : M → Option (A × M)) :
    List Bool → M → List A × List A × M
  | [], m => ([], [], m)
  | true :: ds, m =>
    match next m with
    | none => runDirs next nextBack ds m
    | some p =>
      let r := runDirs next nextBack ds p.2
      (p.1 :: r.1, r.2.1, r.2.2)
  | false :: ds, m =>
    match nextBack m with
    | none => runDirs next nextBack ds m
    | some p =>
      let r := runDirs next nextBack ds p.2
      (r.1, p.1 :: r.2.1, r.2.2)

/-! ## Helper lemmas -/

theorem allAscii_iff (s : List Nat) : allAscii s = true ↔ ∀ b ∈ s, b ≤ 127 := by
  simp [allAscii]

theorem slice_as_ascii_str_ok (s : List Nat) (h : ∀ b ∈ s, b ≤ 127) :
    slice_as_ascii_str s = .ok s := by
  unfold slice_as_ascii_str
  have hf : s.findIdx? (fun b => 127 < b) = none := by
    rw [List.findIdx?_eq_none_iff]
    intro b hb
    simpa using Nat.not_lt.mpr (h b hb)
  rw [hf]

theorem slice_as_ascii_str_ok_inv (s t : List Nat)
    (h : slice_as_ascii_str s = .ok t) : t = s ∧ ∀ b ∈ s, b ≤ 127 := by
  unfold slice_as_ascii_str at h
  cases hf : s.findIdx? (fun b => 127 < b) with
  | some i => rw [hf] at h; cases h
  | none =>
    rw [hf] at h
    simp only [Except.ok.injEq] at h
    refine ⟨h.symm, fun b hb => ?_⟩
    rw [List.findIdx?_eq_none_iff] at hf
    simpa using hf b hb

theorem slice_as_ascii_str_error_spec (s : List Nat) (e : AsAsciiStrError)
    (h : slice_as_ascii_str s = .error e) :
    (∃ b, s[e.valid_up_to]? = some b ∧ 127 < b) ∧
      ∀ j, j < e.valid_up_to → ∀ b, s[j]? = some b → b ≤ 127 := by
  unfold slice_as_ascii_str at h
  cases hf : s.findIdx? (fun b => 127 < b) with
  | none => rw [hf] at h; cases h
  | some i =>
    rw [hf] at h
    simp only [Except.error.injEq] at h
    subst h
    obtain ⟨hlt, hp, hj⟩ := List.findIdx?_eq_some_iff_getElem.mp hf
    constructor
    · exact ⟨s[i], List.getElem?_eq_getElem hlt, by simpa using hp⟩
    · intro j hj2 b hb
      have hjlt : j < s.length := Nat.lt_trans hj2 hlt
      have hfalse := hj j hj2
      rw [List.getElem?_eq_getElem hjlt] at hb
      injection hb with hb
      subst hb
      simpa using hfalse

theorem slice_as_ascii_str_error_of_invalid (s : List Nat)
    (h : ¬ ∀ b ∈ s, b ≤ 127) : ∃ e, slice_as_ascii_str s = .error e := by
  unfold slice_as_ascii_str
  cases hf : s.findIdx? (fun b => 127 < b) with
  | some i => exact ⟨⟨i⟩, rfl⟩
  | none =>
    exfalso
    apply h
    intro b hb
    rw [List.findIdx?_eq_none_iff] at hf
    simpa using hf b hb

theorem mem_insertIdx_cases (n c : Nat) (l : List Nat) (x : Nat)
    (h : x ∈ l.insertIdx n c) : x = c ∨ x ∈ l := by
  by_cases hn : n ≤ l.length
  · exact (List.mem_insertIdx hn).mp h
  · rw [List.insertIdx_of_length_lt l c n (Nat.lt_of_not_le hn)] at h
    exact Or.inr h

theorem splitLoop_mem_subset (fuel : Nat) :
    ∀ (sep : Nat) (rem piece : List Nat), piece ∈ splitLoop sep fuel rem →
      ∀ b ∈ piece, b ∈ rem := by
  induction fuel with
  | zero => intro sep rem piece h; simp [splitLoop] at h
  | succ n ih =>
    intro sep rem piece h b hb
    rw [splitLoop] at h
    cases hf : rem.findIdx? (fun c => c == sep) with
    | some i =>
      rw [hf] at h
      rcases List.mem_cons.mp h with h1 | h1
      · exact List.mem_of_mem_take (h1 ▸ hb)
      · exact List.mem_of_mem_drop (ih sep _ piece h1 b hb)
    | none =>
      rw [hf] at h
      simp only [List.mem_singleton] at h
      exact h ▸ hb

/-! ## Claim theorems -/

/-- C1: every safe operation of the library keeps all byte values at or below
127: checked construction (from `u8` and from `char`), case conversion,
re-validation, trimming, slicing, splitting and the buffer mutations
`push`／`push_str`／`insert` all preserve the ASCII range invariant, so viewing
the result as plain bytes exposes only bytes at most 127. -/
theorem ascii_invariant_preserved :
    (∀ b c, u8_to_ascii_char b = .ok c → c ≤ 127) ∧
    (∀ cp c, char_to_ascii_char cp = .ok c → c ≤ 127) ∧
    (∀ c, c ≤ 127 → to_ascii_uppercase c ≤ 127 ∧ to_ascii_lowercase c ≤ 127) ∧
    (∀ s t, slice_as_ascii_str s = .ok t → allAscii t = true) ∧
    (∀ s, allAscii s = true →
      allAscii (trim_start s) = true ∧ allAscii (trim_end s) = true ∧
        allAscii (trim s) = true) ∧
    (∀ s n, allAscii s = true →
      allAscii (s.take n) = true ∧ allAscii (s.drop n) = true) ∧
    (∀ sep s piece, allAscii s = true → piece ∈ splitF sep s →
      allAscii piece = true) ∧
    (∀ s c, allAscii s = true → c ≤ 127 →
      allAscii (asciiString_push s c) = true) ∧
    (∀ s t, allAscii s = true → allAscii t = true →
      allAscii (asciiString_push_str s t) = true) ∧
    (∀ s i c, allAscii s = true → c ≤ 127 →
      allAscii (asciiString_insert s i c) = true) := by
  refine ⟨?_, ?_, ?_, ?_, ?_, ?_, ?_, ?_, ?_, ?_⟩
  · intro b c h
    unfold u8_to_ascii_char at h
    split at h
    · injection h with h; omega
    · cases h
  · intro cp c h
    unfold char_to_ascii_char at h
    split at h
    · injection h with h
      have : cp % 256 ≤ cp := Nat.mod_le cp 256
      omega
    · cases h
  · intro c hc
    unfold to_ascii_uppercase to_ascii_lowercase
    constructor
    · split <;> omega
    · split <;> omega
  · intro s t h
    obtain ⟨rfl, hall⟩ := slice_as_ascii_str_ok_inv s t h
    exact (allAscii_iff _).mpr hall
  · intro s h
    rw [allAscii_iff] at h
    refine ⟨?_, ?_, ?_⟩
    · exact (allAscii_iff _).mpr fun b hb => h b (List.mem_of_mem_drop hb)
    · exact (allAscii_iff _).mpr fun b hb => h b (List.mem_of_mem_take hb)
    · exact (allAscii_iff _).mpr fun b hb =>
        h b (List.mem_of_mem_drop (List.mem_of_mem_take hb))
  · intro s n h
    rw [allAscii_iff] at h
    exact ⟨(allAscii_iff _).mpr fun b hb => h b (List.mem_of_mem_take hb),
      (allAscii_iff _).mpr fun b hb => h b (List.mem_of_mem_drop hb)⟩
  · intro sep s piece h hmem
    rw [allAscii_iff] at h
    exact (allAscii_iff _).mpr fun b hb =>
      h b (splitLoop_mem_subset (s.length + 1) sep s piece hmem b hb)
  · intro s c h hc
    rw [allAscii_iff] at h
    refine (allAscii_iff _).mpr fun b hb => ?_
    rcases List.mem_append.mp hb with h1 | h1
    · exact h b h1
    · rw [List.mem_singleton] at h1; omega
  · intro s t h ht
    rw [allAscii_iff] at h
    rw [allAscii_iff] at ht
    refine (allAscii_iff _).mpr fun b hb => ?_
    rcases List.mem_append.mp hb with h1 | h1
    · exact h b h1
    · exact ht b h1
  · intro s i c h hc
    rw [allAscii_iff] at h
    refine (allAscii_iff _).mpr fun b hb => ?_
    rcases mem_insertIdx_cases i c s b hb with h1 | h1
    · omega
    · exact h b h1

/-- Witness for C1: the invariant theorem applied at concrete inputs. -/
theorem ascii_invariant_preserved_witness :
    (65 : Nat) ≤ 127 ∧ allAscii (asciiString_push [104, 105] 33) = true :=
  ⟨ascii_invariant_preserved.1 65 65 rfl,
    (ascii_invariant_preserved.2.2.2.2.2.2.2.1) [104, 105] 33 (by decide)
      (by decide)⟩

/-- C2: validating a byte slice succeeds exactly when every byte is at most
127; on failure `valid_up_to` is the index of the first byte above 127, and
the input `[0x41, 0x42, 0xFF, 0x43]` fails at position 2. -/
theorem as_ascii_str_iff_first_invalid :
    (∀ s : List Nat, (∃ t, slice_as_ascii_str s = .ok t) ↔ ∀ b ∈ s, b ≤ 127) ∧
    (∀ s e, slice_as_ascii_str s = .error e →
      (∃ b, s[e.valid_up_to]? = some b ∧ 127 < b) ∧
        ∀ j, j < e.valid_up_to → ∀ b, s[j]? = some b → b ≤ 127) ∧
    slice_as_ascii_str [0x41, 0x42, 0xFF, 0x43] = .error ⟨2⟩ := by
  refine ⟨fun s => ⟨?_, fun h => ⟨s, slice_as_ascii_str_ok s h⟩⟩,
    fun s e h => slice_as_ascii_str_error_spec s e h, rfl⟩
  rintro ⟨t, ht⟩
  exact (slice_as_ascii_str_ok_inv s t ht).2

/-- Witness for C2: the characterization applied at concrete inputs. -/
theorem as_ascii_str_iff_first_invalid_witness :
    (∃ t, slice_as_ascii_str [40, 32, 59] = .ok t) ∧
    (∃ b, ([65, 200] : List Nat)[1]? = some b ∧ 127 < b) :=
  ⟨(as_ascii_str_iff_first_invalid.1 [40, 32, 59]).mpr (by decide),
    ((as_ascii_str_iff_first_invalid.2.1 [65, 200] ⟨1⟩) rfl).1⟩

set_option maxRecDepth 10000 in
/-- C3 evaluation at the failing input: lib.rs `Ascii::is_graph` and
`Ascii::is_print` underflow on byte 0 (plain subtraction, a debug-build
panic), while the wrapping implementations in ascii_char.rs and ascii.rs are
total and match the ranges `[0x21, 0x7E]` and `[0x20, 0x7E]` for every byte
value, in particular without false matches at 0 and 255. -/
theorem ctype_wrapping_ranges :
    (∀ b : Fin 256,
      asciiChar_is_graph b.val = decide (33 ≤ b.val ∧ b.val ≤ 126) ∧
      asciiChar_is_print b.val = decide (32 ≤ b.val ∧ b.val ≤ 126) ∧
      asciiWrapper_is_graph b.val = decide (33 ≤ b.val ∧ b.val ≤ 126) ∧
      asciiWrapper_is_print b.val = decide (32 ≤ b.val ∧ b.val ≤ 126) ∧
      (33 ≤ b.val → lib_is_graph b.val = some (decide (b.val ≤ 126))) ∧
      (b.val < 33 → lib_is_graph b.val = none) ∧
      (32 ≤ b.val → lib_is_print b.val = some (decide (b.val ≤ 126))) ∧
      (b.val < 32 → lib_is_print b.val = none)) ∧
    lib_is_graph 0 = none ∧ lib_is_print 0 = none ∧
    asciiChar_is_graph 0 = false ∧ asciiChar_is_graph 255 = false ∧
    asciiChar_is_print 0 = false ∧ asciiChar_is_print 255 = false := by
  refine ⟨by decide, rfl, rfl, rfl, rfl, rfl, rfl⟩

/-- Witness for the total-range statement of `ctype_wrapping_ranges` at
concrete bytes. -/
theorem ctype_wrapping_ranges_witness :
    lib_is_graph 65 = some (decide ((65 : Nat) ≤ 126)) ∧
      lib_is_print 31 = none :=
  ⟨(ctype_wrapping_ranges.1 ⟨65, by decide⟩).2.2.2.2.1 (by decide),
    (ctype_wrapping_ranges.1 ⟨31, by decide⟩).2.2.2.2.2.2.2 (by decide)⟩

/-- C4 counterexample: the `str` validation error is the same single-position
value for a two-byte character (U+00E9, bytes `C3 A9`) and a three-byte
character (U+20AC, bytes `E2 82 AC`) at the same offset, so the error cannot
report which decoded character produced the first invalid byte. -/
theorem str_error_has_no_character :
    str_as_ascii_str [97, 195, 169] = .error ⟨1⟩ ∧
    str_as_ascii_str [97, 226, 130, 172] = .error ⟨1⟩ ∧
    utf8FirstCodepoint [195, 169] = some 0xE9 ∧
    utf8FirstCodepoint [226, 130, 172] = some 0x20AC ∧
    (0xE9 : Nat) ≠ 0x20AC :=
  ⟨rfl, rfl, rfl, rfl, by decide⟩

/-- C4 amended: validating textual input works on the UTF-8 bytes exactly like
byte-slice validation and on failure reports only the byte offset of the first
byte above 127; the error carries no decoded character. -/
theorem str_as_ascii_str_offset_only :
    ∀ s : List Nat, str_as_ascii_str s = slice_as_ascii_str s ∧
      ∀ e, str_as_ascii_str s = .error e →
        (∃ b, s[e.valid_up_to]? = some b ∧ 127 < b) ∧
          ∀ j, j < e.valid_up_to → ∀ b, s[j]? = some b → b ≤ 127 :=
  fun s => ⟨rfl, fun e h => slice_as_ascii_str_error_spec s e h⟩

/-- Witness for the amended C4 at a concrete failing input. -/
theorem str_as_ascii_str_offset_only_witness :
    (∃ b, ([97, 195, 169] : List Nat)[1]? = some b ∧ 127 < b) :=
  ((str_as_ascii_str_offset_only [97, 195, 169]).2 ⟨1⟩ rfl).1

/-- C5: for an all-ASCII byte slice, `AsciiStr::from_ascii` succeeds and
`as_bytes` on the result returns the original bytes. -/
theorem from_ascii_as_bytes_round_trip (s : List Nat)
    (h : ∀ b ∈ s, b ≤ 127) :
    ∃ t, asciiStr_from_ascii s = .ok t ∧ asciiStr_as_bytes t = s :=
  ⟨s, slice_as_ascii_str_ok s h, rfl⟩

/-- Witness for C5 at a concrete input. -/
theorem from_ascii_as_bytes_round_trip_witness :
    ∃ t, asciiStr_from_ascii [102, 111, 111] = .ok t ∧
      asciiStr_as_bytes t = [102, 111, 111] :=
  from_ascii_as_bytes_round_trip [102, 111, 111] (by decide)

/-- C6: `split` does not merge consecutive separators: splitting `"1,2,3"` on
a comma yields exactly `["1","2","3"]`, the empty string yields exactly one
empty piece for every separator, and `"|||"` split on `'|'` yields exactly
four empty pieces. -/
theorem split_basic_examples :
    splitF 44 [49, 44, 50, 44, 51] = [[49], [50], [51]] ∧
    (∀ sep, splitF sep [] = [[]]) ∧
    splitF 124 [124, 124, 124] = [[], [], [], []] :=
  ⟨rfl, fun _ => rfl, rfl⟩

/-- C7: `lines()` splits at line feeds, drops a carriage return immediately
before a line feed, produces no extra final empty line for a trailing
terminator but keeps embedded empty lines: the bytes of
`"foo\r\nbar\n\nbaz\n"` yield exactly `["foo","bar","","baz"]` and `"\n"`
yields exactly `[""]`. -/
theorem lines_basic_examples :
    linesF [102, 111, 111, 13, 10, 98, 97, 114, 10, 10, 98, 97, 122, 10] =
      [[102, 111, 111], [98, 97, 114], [], [98, 97, 122]] ∧
    linesF [10] = [[]] :=
  ⟨rfl, rfl⟩

/-- C9: `AsciiString::from_ascii` validates first; on any non-ASCII byte it
returns the input buffer unchanged as the error value, and on success the
resulting string holds exactly the input bytes. -/
theorem buffer_from_ascii_spec :
    ∀ bs, (¬ allAscii bs = true → asciiString_from_ascii bs = .error bs) ∧
      (allAscii bs = true →
        asciiString_from_ascii bs = .ok (asciiString_from_ascii_unchecked bs) ∧
        asciiString_into_bytes (asciiString_from_ascii_unchecked bs) = bs) := by
  intro bs
  constructor
  · intro h
    simp [asciiString_from_ascii, h]
  · intro h
    simp [asciiString_from_ascii, h, asciiString_into_bytes,
      asciiString_from_ascii_unchecked]

/-- Witness for C9 at concrete inputs, both failing and succeeding. -/
theorem buffer_from_ascii_spec_witness :
    asciiString_from_ascii [102, 200] = .error [102, 200] ∧
    asciiString_from_ascii [102, 111] =
      .ok (asciiString_from_ascii_unchecked [102, 111]) :=
  ⟨(buffer_from_ascii_spec [102, 200]).1 (by decide),
    ((buffer_from_ascii_spec [102, 111]).2 (by decide)).1⟩

/-- C10: in `AsciiCStr::from_bytes_with_nul` the interior-nul check runs
before the ASCII scan: whenever the input has an interior nul, even with a
non-ASCII byte at an earlier position, the error has kind `InteriorNul` and
carries the first nul position; concretely `[0xFF, 0x00, 0x41]` reports
`InteriorNul` at position 1 although its first invalid byte sits at index 0. -/
theorem interior_nul_priority :
    (∀ (bs : List Nat) (k j b : Nat), bs[k]? = some 0 → k + 1 < bs.length →
      j < k → bs[j]? = some b → 127 < b →
      ∃ p, memchr 0 bs = some p ∧ p ≤ k ∧
        from_bytes_with_nul bs = .error ⟨.interiorNul, p⟩) ∧
    from_bytes_with_nul [255, 0, 65] = .error ⟨.interiorNul, 1⟩ ∧
    ([255, 0, 65] : List Nat).findIdx? (fun b => 127 < b) = some 0 := by
  refine ⟨?_, rfl, rfl⟩
  intro bs k j b hk hklen hj hjb hb
  have hkl : k < bs.length := (List.getElem?_eq_some_iff.mp hk).1
  have hmem : (0 : Nat) ∈ bs := by
    obtain ⟨hlt2, hEq⟩ := List.getElem?_eq_some_iff.mp hk
    exact hEq ▸ List.getElem_mem hlt2
  have hex : ∃ x, x ∈ bs ∧ (x == (0 : Nat)) = true := ⟨0, hmem, by decide⟩
  obtain ⟨p, hp⟩ : ∃ p, memchr 0 bs = some p := by
    unfold memchr
    exact ⟨_, List.findIdx?_eq_some_of_exists hex⟩
  obtain ⟨hpl, hpp, hmin⟩ := List.findIdx?_eq_some_iff_getElem.mp hp
  have hple : p ≤ k := by
    by_contra hgt
    have hlt : k < p := Nat.lt_of_not_le hgt
    have := hmin k hlt
    have hk0 : bs[k] = 0 := by
      obtain ⟨h1, h2⟩ := List.getElem?_eq_some_iff.mp hk
      exact h2
    simp [hk0] at this
  refine ⟨p, hp, hple, ?_⟩
  have hne : p + 1 ≠ bs.length := by omega
  simp only [from_bytes_with_nul, hp]
  rw [if_pos hne]

/-- Witness for C10: the priority statement applied at `[0xFF, 0x00, 0x41]`. -/
theorem interior_nul_priority_witness :
    ∃ p, memchr 0 [255, 0, 65] = some p ∧ p ≤ 1 ∧
      from_bytes_with_nul [255, 0, 65] = .error ⟨.interiorNul, p⟩ :=
  interior_nul_priority.1 [255, 0, 65] 1 0 255 rfl (by decide) (by decide) rfl
    (by decide)

/-! ## Bidirectional iteration: `Split` side -/

theorem splitLoop_congr (sep : Nat) :
    ∀ f1 : Nat, ∀ (f2 : Nat) (rem : List Nat), rem.length < f1 →
      rem.length < f2 → splitLoop sep f1 rem = splitLoop sep f2 rem := by
  intro f1
  induction f1 with
  | zero => intro f2 rem h1 _; omega
  | succ g ih =>
    intro f2 rem h1 h2
    cases f2 with
    | zero => omega
    | succ g2 =>
      cases hf : rem.findIdx? (fun c => c == sep) with
      | none => simp only [splitLoop, hf]
      | some i =>
        obtain ⟨hlt, _, _⟩ := List.findIdx?_eq_some_iff_getElem.mp hf
        have hd : (rem.drop (i + 1)).length = rem.length - (i + 1) :=
          List.length_drop _ _
        simp only [splitLoop, hf]
        rw [ih g2 (rem.drop (i + 1)) (by omega) (by omega)]

theorem splitF_eq_def (sep : Nat) (rem : List Nat) :
    splitF sep rem =
      match rem.findIdx? (fun c => c == sep) with
      | some i => rem.take i :: splitF sep (rem.drop (i + 1))
      | none => [rem] := by
  cases hf : rem.findIdx? (fun c => c == sep) with
  | none => simp only [splitF, splitLoop, hf]
  | some i =>
    obtain ⟨hlt, _, _⟩ := List.findIdx?_eq_some_iff_getElem.mp hf
    have hd : (rem.drop (i + 1)).length = rem.length - (i + 1) :=
      List.length_drop _ _
    simp only [splitF, splitLoop, hf]
    rw [splitLoop_congr sep rem.length ((rem.drop (i + 1)).length + 1)
      (rem.drop (i + 1)) (by omega) (by omega), splitLoop]

theorem splitF_eq_some (sep : Nat) (rem : List Nat) (i : Nat)
    (hf : rem.findIdx? (fun c => c == sep) = some i) :
    splitF sep rem = rem.take i :: splitF sep (rem.drop (i + 1)) := by
  rw [splitF_eq_def, hf]

theorem splitF_ne_nil (sep : Nat) (rem : List Nat) : splitF sep rem ≠ [] := by
  rw [splitF_eq_def]
  cases hf : rem.findIdx? (fun c => c == sep) <;> simp

theorem splitF_of_sepfree (sep : Nat) (rem : List Nat)
    (h : ∀ b ∈ rem, (b == sep) = false) : splitF sep rem = [rem] := by
  rw [splitF_eq_def, List.findIdx?_eq_none_iff.mpr h]

theorem splitNext_some (st : SplitSt) (a : List Nat) (st' : SplitSt)
    (h : splitNext st = some (a, st')) : pendingS st = a :: pendingS st' := by
  unfold splitNext at h
  by_cases he : st.ended
  · rw [if_pos he] at h; cases h
  · rw [if_neg he] at h
    cases hf : st.rem.findIdx? (fun c => c == st.sep) with
    | some i =>
      rw [hf] at h
      simp only [Option.some.injEq, Prod.mk.injEq] at h
      obtain ⟨rfl, rfl⟩ := h
      simp only [pendingS, if_neg he, Bool.false_eq_true, if_false]
      rw [splitF_eq_def st.sep st.rem, hf]
    | none =>
      rw [hf] at h
      simp only [Option.some.injEq, Prod.mk.injEq] at h
      obtain ⟨rfl, rfl⟩ := h
      simp only [pendingS, if_neg he]
      rw [splitF_eq_def st.sep st.rem, hf]
      simp [splitF]

theorem rfindIdx?_none (p : Nat → Bool) (l : List Nat)
    (h : rfindIdx? p l = none) : ∀ x ∈ l, p x = false := by
  unfold rfindIdx? at h
  cases hf : l.reverse.findIdx? p with
  | some k => rw [hf] at h; cases h
  | none =>
    rw [List.findIdx?_eq_none_iff] at hf
    intro x hx
    exact hf x (List.mem_reverse.mpr hx)

theorem rfindIdx?_concat (p : Nat → Bool) (a : List Nat) (x : Nat) :
    rfindIdx? p (a ++ [x]) =
      if p x then some a.length else rfindIdx? p a := by
  by_cases hp : p x
  · rw [if_pos hp]
    unfold rfindIdx?
    rw [List.reverse_append, List.reverse_singleton, List.singleton_append,
      List.findIdx?_cons, if_pos hp]
    simp
  · rw [if_neg hp]
    unfold rfindIdx?
    rw [List.reverse_append, List.reverse_singleton, List.singleton_append,
      List.findIdx?_cons, if_neg hp, List.findIdx?_start_succ]
    cases hf : a.reverse.findIdx? p with
    | none => simp
    | some k =>
      simp only [Option.map_some', List.length_append, List.length_singleton]
      congr 1
      omega

theorem rfindIdx?_some_decomp (p : Nat → Bool) (l : List Nat) :
    ∀ i : Nat, rfindIdx? p l = some i →
      ∃ u x v, l = u ++ x :: v ∧ u.length = i ∧ p x = true ∧
        ∀ y ∈ v, p y = false := by
  induction l using List.reverseRecOn with
  | nil =>
    intro i h
    simp [rfindIdx?] at h
  | append_singleton a x iha =>
    intro i h
    rw [rfindIdx?_concat] at h
    by_cases hp : p x
    · rw [if_pos hp] at h
      injection h with h
      subst h
      exact ⟨a, x, [], rfl, rfl, hp, by simp⟩
    · rw [if_neg hp] at h
      obtain ⟨u, z, v, hdec, hlen, hpz, hv⟩ := iha i h
      refine ⟨u, z, v ++ [x], by rw [hdec]; simp, hlen, hpz, ?_⟩
      intro y hy
      rcases List.mem_append.mp hy with h1 | h1
      · exact hv y h1
      · rw [List.mem_singleton] at h1
        subst h1
        simpa using hp

theorem splitF_append_sepfree (sep : Nat) :
    ∀ (n : Nat) (x y : List Nat), x.length = n →
      (∀ b ∈ y, (b == sep) = false) →
      splitF sep (x ++ sep :: y) = splitF sep x ++ [y] := by
  intro n
  induction n using Nat.strong_induction_on with
  | _ n ih =>
    intro x y hxlen hy
    cases hfx : x.findIdx? (fun c => c == sep) with
    | some f =>
      obtain ⟨hflt, _, _⟩ := List.findIdx?_eq_some_iff_getElem.mp hfx
      have happ : (x ++ sep :: y).findIdx? (fun c => c == sep) = some f := by
        rw [List.findIdx?_append, hfx]
        rfl
      have htake : (x ++ sep :: y).take f = x.take f :=
        List.take_append_of_le_length (by omega)
      have hdrop : (x ++ sep :: y).drop (f + 1) = x.drop (f + 1) ++ sep :: y :=
        List.drop_append_of_le_length (by omega)
      rw [splitF_eq_some sep (x ++ sep :: y) f happ,
        splitF_eq_some sep x f hfx, htake, hdrop]
      have hlen2 : (x.drop (f + 1)).length < n := by
        rw [List.length_drop]; omega
      rw [ih (x.drop (f + 1)).length hlen2 (x.drop (f + 1)) y rfl hy]
      simp
    | none =>
      have hxfree : ∀ b ∈ x, (b == sep) = false :=
        fun b hb => List.findIdx?_eq_none_iff.mp hfx b hb
      have happ : (x ++ sep :: y).findIdx? (fun c => c == sep) =
          some x.length := by
        rw [List.findIdx?_append, hfx]
        simp [List.findIdx?_cons]
      have htake : (x ++ sep :: y).take x.length = x := by
        rw [List.take_append_of_le_length (Nat.le_refl _), List.take_length]
      have hdrop : (x ++ sep :: y).drop (x.length + 1) = y := by
        have hre : x ++ sep :: y = (x ++ [sep]) ++ y := by simp
        rw [hre, List.drop_left' (by simp)]
      rw [splitF_eq_some sep (x ++ sep :: y) x.length happ, htake, hdrop,
        splitF_of_sepfree sep x hxfree, splitF_of_sepfree sep y hy]
      rfl

theorem splitF_append_sep (sep : Nat) (x y : List Nat)
    (hy : ∀ b ∈ y, (b == sep) = false) :
    splitF sep (x ++ sep :: y) = splitF sep x ++ [y] :=
  splitF_append_sepfree sep x.length x y rfl hy

theorem splitNextBack_some (st : SplitSt) (a : List Nat) (st' : SplitSt)
    (h : splitNextBack st = some (a, st')) :
    pendingS st = pendingS st' ++ [a] := by
  unfold splitNextBack at h
  by_cases he : st.ended
  · rw [if_pos he] at h; cases h
  · rw [if_neg he] at h
    cases hf : rfindIdx? (fun c => c == st.sep) st.rem with
    | some i =>
      rw [hf] at h
      simp only [Option.some.injEq, Prod.mk.injEq] at h
      obtain ⟨rfl, rfl⟩ := h
      obtain ⟨u, z, v, hdec, hulen, hpz, hv⟩ := rfindIdx?_some_decomp _ _ i hf
      have hz : z = st.sep := by simpa using hpz
      subst hz
      have hdrop : st.rem.drop (i + 1) = v := by
        rw [hdec]
        have hre : u ++ st.sep :: v = (u ++ [st.sep]) ++ v := by simp
        rw [hre, List.drop_left' (by simp [hulen])]
      have htake : st.rem.take i = u := by
        rw [hdec, List.take_append_of_le_length (by omega), ← hulen,
          List.take_length]
      rw [hdrop, htake]
      have h1 : pendingS st = splitF st.sep st.rem := by
        simp [pendingS, he]
      have h2 : pendingS (SplitSt.mk st.sep false u) = splitF st.sep u := by
        simp [pendingS]
      rw [h1, h2, hdec, splitF_append_sep st.sep u v hv]
    | none =>
      rw [hf] at h
      simp only [Option.some.injEq, Prod.mk.injEq] at h
      obtain ⟨rfl, rfl⟩ := h
      have hfree := rfindIdx?_none _ _ hf
      have h1 : pendingS st = splitF st.sep st.rem := by
        simp [pendingS, he]
      have h2 : pendingS (SplitSt.mk st.sep true []) = [] := by
        simp [pendingS]
      rw [h1, h2, splitF_of_sepfree st.sep st.rem fun b hb => hfree b hb]
      simp

theorem pendingS_of_ended (st : SplitSt) (he : st.ended = true) :
    pendingS st = [] := by
  simp [pendingS, he]

theorem splitNextBack_progress (st : SplitSt) (h : pendingS st ≠ []) :
    ∃ a st', splitNextBack st = some (a, st') := by
  by_cases he : st.ended
  · exact absurd (pendingS_of_ended st (by simpa using he)) h
  · unfold splitNextBack
    rw [if_neg he]
    cases rfindIdx? (fun c => c == st.sep) st.rem with
    | some i => exact ⟨_, _, rfl⟩
    | none => exact ⟨_, _, rfl⟩

/-! ## Generic invariants of double-ended consumption -/

theorem runDirs_invariant {M A : Type} (next nextBack : M → Option (A × M))
    (P : M → List A)
    (hN : ∀ m a m', next m = some (a, m') → P m = a :: P m')
    (hB : ∀ m a m', nextBack m = some (a, m') → P m = P m' ++ [a]) :
    ∀ (ds : List Bool) (m : M),
      (runDirs next nextBack ds m).1 ++ P (runDirs next nextBack ds m).2.2 ++
        (runDirs next nextBack ds m).2.1.reverse = P m := by
  intro ds
  induction ds with
  | nil => intro m; simp [runDirs]
  | cons d ds ih =>
    intro m
    cases d with
    | true =>
      cases hn : next m with
      | none =>
        simp only [runDirs, hn]
        exact ih m
      | some p =>
        obtain ⟨a, m'⟩ := p
        simp only [runDirs, hn]
        have hrec := ih m'
        simp only [List.cons_append]
        rw [hrec, hN m a m' hn]
    | false =>
      cases hn : nextBack m with
      | none =>
        simp only [runDirs, hn]
        exact ih m
      | some p =>
        obtain ⟨a, m'⟩ := p
        simp only [runDirs, hn]
        have hrec := ih m'
        rw [List.reverse_cons, ← List.append_assoc, hrec, hB m a m' hn]

theorem runDirs_backward {M A : Type} (next nextBack : M → Option (A × M))
    (P : M → List A)
    (hB : ∀ m a m', nextBack m = some (a, m') → P m = P m' ++ [a])
    (hProg : ∀ m, P m ≠ [] → ∃ a m', nextBack m = some (a, m')) :
    ∀ (n : Nat) (m : M), (P m).length = n →
      (runDirs next nextBack (List.replicate n false) m).1 = [] ∧
      P (runDirs next nextBack (List.replicate n false) m).2.2 = [] ∧
      (runDirs next nextBack (List.replicate n false) m).2.1.reverse = P m := by
  intro n
  induction n with
  | zero =>
    intro m h
    have hnil : P m = [] := List.eq_nil_of_length_eq_zero h
    simp [runDirs, hnil]
  | succ k ih =>
    intro m h
    have hne : P m ≠ [] := by
      intro hcon
      rw [hcon] at h
      cases h
    obtain ⟨a, m', hstep⟩ := hProg m hne
    have hPm := hB m a m' hstep
    have hlen : (P m').length = k := by
      rw [hPm] at h
      simp at h
      omega
    obtain ⟨ih1, ih2, ih3⟩ := ih m' hlen
    rw [List.replicate_succ]
    simp only [runDirs, hstep]
    refine ⟨ih1, ih2, ?_⟩
    rw [List.reverse_cons, ih3, ← hPm]

/-! ## Bidirectional iteration: `Lines` side -/

theorem linesNext_some_length (s a s' : List Nat)
    (h : linesNext s = some (a, s')) : s'.length < s.length := by
  unfold linesNext at h
  cases hf : s.findIdx? (fun c => c == 10) with
  | some idx =>
    rw [hf] at h
    simp only [Option.some.injEq, Prod.mk.injEq] at h
    obtain ⟨-, rfl⟩ := h
    obtain ⟨hlt, -, -⟩ := List.findIdx?_eq_some_iff_getElem.mp hf
    rw [List.length_drop]
    omega
  | none =>
    rw [hf] at h
    by_cases he : s.isEmpty
    · rw [if_pos he] at h; cases h
    · rw [if_neg he] at h
      simp only [Option.some.injEq, Prod.mk.injEq] at h
      obtain ⟨-, rfl⟩ := h
      have hne : s ≠ [] := by simpa using he
      simp only [List.length_nil]
      cases s with
      | nil => exact absurd rfl hne
      | cons _ _ => simp

theorem linesLoop_congr :
    ∀ f1 : Nat, ∀ (f2 : Nat) (s : List Nat), s.length < f1 → s.length < f2 →
      linesLoop f1 s = linesLoop f2 s := by
  intro f1
  induction f1 with
  | zero => intro f2 s h1 _; omega
  | succ g ih =>
    intro f2 s h1 h2
    cases f2 with
    | zero => omega
    | succ g2 =>
      cases hn : linesNext s with
      | none => simp only [linesLoop, hn]
      | some p =>
        obtain ⟨a, s'⟩ := p
        have hlen := linesNext_some_length s a s' hn
        simp only [linesLoop, hn]
        rw [ih g2 s' (by omega) (by omega)]

theorem linesF_eq_def (s : List Nat) :
    linesF s =
      match linesNext s with
      | some p => p.1 :: linesF p.2
      | none => [] := by
  cases hn : linesNext s with
  | none => simp only [linesF, linesLoop, hn]
  | some p =>
    obtain ⟨a, s'⟩ := p
    have hlen := linesNext_some_length s a s' hn
    simp only [linesF, linesLoop, hn]
    rw [linesLoop_congr s.length (s'.length + 1) s' (by omega) (by omega),
      linesLoop]

theorem linesF_eq_some (s a s' : List Nat) (h : linesNext s = some (a, s')) :
    linesF s = a :: linesF s' := by
  rw [linesF_eq_def, h]

theorem linesNext_eq_none (s : List Nat) (h : linesNext s = none) : s = [] := by
  unfold linesNext at h
  cases hf : s.findIdx? (fun c => c == 10) with
  | some idx => rw [hf] at h; cases h
  | none =>
    rw [hf] at h
    by_cases he : s.isEmpty
    · exact List.isEmpty_iff.mp he
    · rw [if_neg he] at h; cases h

theorem linesF_nil : linesF [] = [] := rfl

theorem linesF_ne_nil (s : List Nat) (h : s ≠ []) : linesF s ≠ [] := by
  cases hn : linesNext s with
  | none => exact absurd (linesNext_eq_none s hn) h
  | some p =>
    rw [linesF_eq_def, hn]
    simp

theorem linesF_noLF (v : List Nat) (hne : v ≠ [])
    (hv : ∀ b ∈ v, (b == (10 : Nat)) = false) : linesF v = [v] := by
  have hf : v.findIdx? (fun c => c == 10) = none :=
    List.findIdx?_eq_none_iff.mpr hv
  have hn : linesNext v = some (v, []) := by
    unfold linesNext
    rw [hf, if_neg (by simpa using hne)]
  rw [linesF_eq_some v v [] hn, linesF_nil]

/-- One step of the carriage-return stripping done by `Lines` before a line
feed: drop a single trailing carriage return, if present. -/
def stripLastCR (z : List Nat) : List Nat :=
  if z.getLast? = some 13 then z.dropLast else z

theorem linesNext_term (z y : List Nat)
    (hz : ∀ b ∈ z, (b == (10 : Nat)) = false) :
    linesNext (z ++ 10 :: y) = some (stripLastCR z, y) := by
  have hfz : z.findIdx? (fun c => c == 10) = none :=
    List.findIdx?_eq_none_iff.mpr hz
  have hf : (z ++ 10 :: y).findIdx? (fun c => c == 10) = some z.length := by
    rw [List.findIdx?_append, hfz]
    simp [List.findIdx?_cons]
  have hdrop : (z ++ 10 :: y).drop (z.length + 1) = y := by
    have hre : z ++ 10 :: y = (z ++ [10]) ++ y := by simp
    rw [hre, List.drop_left' (by simp)]
  simp only [linesNext, hf]
  by_cases hcr : z.getLast? = some 13
  · have hzne : z ≠ [] := by
      intro hc
      rw [hc] at hcr
      cases hcr
    have hpos : 0 < z.length := List.length_pos.mpr hzne
    have hidx : (z ++ 10 :: y)[z.length - 1]? = some 13 := by
      rw [List.getElem?_append_left (by omega), ← List.getLast?_eq_getElem?]
      exact hcr
    rw [if_pos ⟨hpos, hidx⟩]
    have htake : (z ++ 10 :: y).take (z.length - 1) = z.dropLast := by
      rw [List.take_append_of_le_length (by omega), ← List.dropLast_eq_take]
    rw [htake, hdrop]
    simp [stripLastCR, hcr]
  · have hcond : ¬(0 < z.length ∧ (z ++ 10 :: y)[z.length - 1]? = some 13) := by
      rintro ⟨hpos, hidx⟩
      apply hcr
      rw [List.getElem?_append_left (by omega)] at hidx
      rw [List.getLast?_eq_getElem?]
      exact hidx
    rw [if_neg hcond]
    have htake : (z ++ 10 :: y).take z.length = z := by
      rw [List.take_append_of_le_length (Nat.le_refl _), List.take_length]
    rw [htake, hdrop]
    simp [stripLastCR, hcr]

theorem linesF_term (z : List Nat)
    (hz : ∀ b ∈ z, (b == (10 : Nat)) = false) :
    linesF (z ++ [10]) = [stripLastCR z] := by
  rw [linesF_eq_some _ _ _ (linesNext_term z [] hz), linesF_nil]

theorem linesF_append_aux :
    ∀ (n : Nat) (x y : List Nat), x.length = n → x.getLast? = some 10 →
      linesF (x ++ y) = linesF x ++ linesF y := by
  intro n
  induction n using Nat.strong_induction_on with
  | _ n ih =>
    intro x y hxlen hx10
    have hxne : x ≠ [] := by
      intro hc
      rw [hc] at hx10
      cases hx10
    have hxpos : 0 < x.length := List.length_pos.mpr hxne
    have hxdec : x.dropLast ++ [10] = x := List.dropLast_append_getLast? 10 hx10
    have hmem : (10 : Nat) ∈ x := by
      rw [← hxdec]
      simp
    cases hfx : x.findIdx? (fun c => c == 10) with
    | none =>
      exfalso
      have := List.findIdx?_eq_none_iff.mp hfx 10 hmem
      simp at this
    | some idx =>
      obtain ⟨hlt, hp, hmin⟩ := List.findIdx?_eq_some_iff_getElem.mp hfx
      have hfapp : (x ++ y).findIdx? (fun c => c == 10) = some idx := by
        rw [List.findIdx?_append, hfx]
        rfl
      have htake1 : (x ++ y).take (idx - 1) = x.take (idx - 1) :=
        List.take_append_of_le_length (by omega)
      have htake2 : (x ++ y).take idx = x.take idx :=
        List.take_append_of_le_length (by omega)
      have hdropapp : (x ++ y).drop (idx + 1) = x.drop (idx + 1) ++ y :=
        List.drop_append_of_le_length (by omega)
      have hget : (x ++ y)[idx - 1]? = x[idx - 1]? :=
        List.getElem?_append_left (by omega)
      have hnx : linesNext x =
          some ((if 0 < idx ∧ x[idx - 1]? = some 13 then x.take (idx - 1)
            else x.take idx), x.drop (idx + 1)) := by
        simp only [linesNext, hfx]
      have hnapp : linesNext (x ++ y) =
          some ((if 0 < idx ∧ x[idx - 1]? = some 13 then x.take (idx - 1)
            else x.take idx), x.drop (idx + 1) ++ y) := by
        simp only [linesNext, hfapp, hget, htake1, htake2, hdropapp]
      rw [linesF_eq_some _ _ _ hnapp, linesF_eq_some _ _ _ hnx]
      simp only [List.cons_append]
      congr 1
      by_cases hrest : x.drop (idx + 1) = []
      · rw [hrest]
        simp [linesF_nil]
      · have hlast : (x.drop (idx + 1)).getLast? = some 10 := by
          have hsplit : x.take (idx + 1) ++ x.drop (idx + 1) = x :=
            List.take_append_drop _ _

          cases hbl : (x.drop (idx + 1)).getLast? with
          | none => exact absurd (List.getLast?_eq_none_iff.mp hbl) hrest
          | some b =>
            have hx10b : (x.take (idx + 1) ++ x.drop (idx + 1)).getLast? =
                some 10 := by rw [hsplit]; exact hx10
            rw [List.getLast?_append, hbl] at hx10b
            simpa using hx10b
        have hlen2 : (x.drop (idx + 1)).length < n := by
          rw [List.length_drop]
          omega
        exact ih _ hlen2 (x.drop (idx + 1)) y rfl hlast

theorem linesF_append_term (x y : List Nat) (h : x.getLast? = some 10) :
    linesF (x ++ y) = linesF x ++ linesF y :=
  linesF_append_aux x.length x y rfl h

theorem scanBackLF_spec (t : List Nat) :
    ∀ i j : Nat, j ≤ i → (j = 0 ∨ t[j - 1]? = some 10) →
      (∀ k, j ≤ k → k < i → ¬ t[k]? = some 10) → scanBackLF t i = j := by
  intro i
  induction i with
  | zero =>
    intro j hj _ _
    have : j = 0 := by omega
    rw [this]
    rfl
  | succ k ih =>
    intro j hj hstop hno
    rw [scanBackLF]
    by_cases hk : t[k]? = some 10
    · rw [if_pos hk]
      rcases Nat.lt_or_ge j (k + 1) with hlt | hge
      · exact ((hno k (by omega) (by omega)) hk).elim
      · omega
    · rw [if_neg hk]
      apply ih
      · rcases hstop with h0 | hsome
        · omega
        · rcases Nat.lt_or_ge j (k + 1) with hlt | hge
          · omega
          · exfalso
            apply hk
            have hje : j = k + 1 := by omega
            rw [hje] at hsome
            simpa using hsome
      · exact hstop
      · intro k2 hk2a hk2b
        exact hno k2 hk2a (by omega)

theorem scanBackLF_decomp (u v : List Nat)
    (hv : ∀ b ∈ v, (b == (10 : Nat)) = false) :
    scanBackLF (u ++ 10 :: v) (u ++ 10 :: v).length = u.length + 1 := by
  apply scanBackLF_spec
  · simp only [List.length_append, List.length_cons]
    omega
  · right
    have h10 : (u ++ 10 :: v)[u.length]? = some 10 := by
      rw [List.getElem?_append_right (Nat.le_refl _)]
      simp
    simpa using h10
  · intro k hk1 hk2 hsome
    have hre : u ++ 10 :: v = (u ++ [10]) ++ v := by simp
    rw [hre, List.getElem?_append_right (by simp; omega)] at hsome
    have hmem : (10 : Nat) ∈ v := by
      obtain ⟨hblt, hbeq⟩ := List.getElem?_eq_some_iff.mp hsome
      exact hbeq ▸ List.getElem_mem hblt
    have := hv 10 hmem
    simp at this

theorem scanBackLF_noLF (t : List Nat)
    (ht : ∀ b ∈ t, (b == (10 : Nat)) = false) :
    scanBackLF t t.length = 0 := by
  apply scanBackLF_spec
  · omega
  · exact Or.inl rfl
  · intro k _ hk2 hsome
    have hmem : (10 : Nat) ∈ t := by
      obtain ⟨hblt, hbeq⟩ := List.getElem?_eq_some_iff.mp hsome
      exact hbeq ▸ List.getElem_mem hblt
    have := ht 10 hmem
    simp at this

theorem stripLastCR_concat13 (w : List Nat) :
    stripLastCR (w ++ [13]) = w := by
  simp [stripLastCR]

theorem stripLastCR_of_ne (w : List Nat) (h : ¬ w.getLast? = some 13) :
    stripLastCR w = w := by
  simp [stripLastCR, h]

theorem linesNextBack_some (s a s' : List Nat)
    (h : linesNextBack s = some (a, s')) : linesF s = linesF s' ++ [a] := by
  have hne : s ≠ [] := by
    intro hc
    rw [hc] at h
    cases h
  have hemp : ¬ (s.isEmpty = true) := by simpa using hne
  by_cases hL : s[s.length - 1]? = some 10
  case neg =>
    have hstep : linesNextBack s =
        some (s.drop (scanBackLF s s.length),
          s.take (scanBackLF s s.length)) := by
      unfold linesNextBack
      rw [if_neg hemp]
      simp only [if_neg hL, List.take_length]
    rw [hstep] at h
    simp only [Option.some.injEq, Prod.mk.injEq] at h
    obtain ⟨rfl, rfl⟩ := h
    cases hrf : rfindIdx? (fun c => c == (10 : Nat)) s with
    | none =>
      have hfree := rfindIdx?_none _ _ hrf
      have hscan : scanBackLF s s.length = 0 := scanBackLF_noLF s hfree
      rw [hscan]
      simp only [List.drop_zero, List.take_zero, linesF_nil, List.nil_append]
      exact linesF_noLF s hne hfree
    | some i =>
      obtain ⟨u, z, v, hdec, hulen, hpz, hv⟩ := rfindIdx?_some_decomp _ _ i hrf
      have hz : z = 10 := by simpa using hpz
      subst hz
      have hscan : scanBackLF s s.length = u.length + 1 := by
        rw [hdec]
        exact scanBackLF_decomp u v hv
      have hvne : v ≠ [] := by
        intro hveq
        apply hL
        rw [hdec, hveq]
        have hidx : (u ++ (10 : Nat) :: ([] : List Nat)).length - 1 =
            u.length := by simp
        rw [hidx, List.getElem?_append_right (Nat.le_refl _)]
        simp
      have hdrop : s.drop (u.length + 1) = v := by
        rw [hdec]
        have hre : u ++ (10 : Nat) :: v = (u ++ [10]) ++ v := by simp
        rw [hre, List.drop_left' (by simp)]
      have htake : s.take (u.length + 1) = u ++ [10] := by
        rw [hdec]
        have hre : u ++ (10 : Nat) :: v = (u ++ [10]) ++ v := by simp
        rw [hre, List.take_left' (by simp)]
      rw [hscan, hdrop, htake, hdec]
      have hre : u ++ (10 : Nat) :: v = (u ++ [10]) ++ v := by simp
      rw [hre, linesF_append_term (u ++ [10]) v (by simp),
        linesF_noLF v hvne hv]
  case pos =>
    have hgl : s.getLast? = some 10 := by
      rw [List.getLast?_eq_getElem?]
      exact hL
    have hbdec : s.dropLast ++ [10] = s := List.dropLast_append_getLast? 10 hgl
    set b := s.dropLast with hb
    have hslen : s.length = b.length + 1 := by
      rw [← hbdec]
      simp
    by_cases hC : 0 < s.length - 1 ∧ s[s.length - 2]? = some 13
    case pos =>
      have hbpos : 0 < b.length := by
        have h1 := hC.1
        omega
      have hb13 : b.getLast? = some 13 := by
        have h2 := hC.2
        rw [← hbdec] at h2
        have hidx : (b ++ [10]).length - 2 = b.length - 1 := by simp
        rw [hidx, List.getElem?_append_left (by omega)] at h2
        rw [List.getLast?_eq_getElem?]
        exact h2
      have hb2dec : b.dropLast ++ [13] = b := List.dropLast_append_getLast? 13 hb13
      set b2 := b.dropLast with hbb2
      have hb2len : b.length = b2.length + 1 := by
        rw [← hb2dec]
        simp
      have hslen2 : s.length - 2 = b2.length := by omega
      have htkb2 : s.take (s.length - 2) = b2 := by
        rw [hslen2, ← hbdec, ← hb2dec]
        rw [List.take_append_of_le_length (by simp),
          List.take_append_of_le_length (by omega), List.take_length]
      have hstep : linesNextBack s =
          some ((s.take (s.length - 2)).drop
              (scanBackLF (s.take (s.length - 2)) (s.length - 2)),
            (s.take (s.length - 2)).take
              (scanBackLF (s.take (s.length - 2)) (s.length - 2))) := by
        unfold linesNextBack
        rw [if_neg hemp]
        simp only [if_pos hL, if_pos hC]
      rw [htkb2, hslen2] at hstep
      rw [hstep] at h
      simp only [Option.some.injEq, Prod.mk.injEq] at h
      obtain ⟨rfl, rfl⟩ := h
      cases hrf : rfindIdx? (fun c => c == (10 : Nat)) b2 with
      | none =>
        have hfree := rfindIdx?_none _ _ hrf
        have hscan : scanBackLF b2 b2.length = 0 := scanBackLF_noLF b2 hfree
        rw [hscan]
        simp only [List.drop_zero, List.take_zero, linesF_nil, List.nil_append]
        rw [← hbdec, ← hb2dec]
        have hzfree : ∀ x ∈ b2 ++ [13], (x == (10 : Nat)) = false := by
          intro x hx
          rcases List.mem_append.mp hx with h1 | h1
          · exact hfree x h1
          · rw [List.mem_singleton] at h1
            subst h1
            rfl
        rw [linesF_term (b2 ++ [13]) hzfree, stripLastCR_concat13]
      | some i =>
        obtain ⟨u, z, v, hdec2, hulen, hpz, hv⟩ :=
          rfindIdx?_some_decomp _ _ i hrf
        have hz : z = 10 := by simpa using hpz
        subst hz
        have hscan : scanBackLF b2 b2.length = u.length + 1 := by
          rw [hdec2]
          exact scanBackLF_decomp u v hv
        have hdropt : b2.drop (u.length + 1) = v := by
          rw [hdec2]
          have hre : u ++ (10 : Nat) :: v = (u ++ [10]) ++ v := by simp
          rw [hre, List.drop_left' (by simp)]
        have htaket : b2.take (u.length + 1) = u ++ [10] := by
          rw [hdec2]
          have hre : u ++ (10 : Nat) :: v = (u ++ [10]) ++ v := by simp
          rw [hre, List.take_left' (by simp)]
        rw [hscan, hdropt, htaket, ← hbdec, ← hb2dec, hdec2]
        have hre2 : ((u ++ (10 : Nat) :: v) ++ [13]) ++ [10] =
            (u ++ [10]) ++ ((v ++ [13]) ++ [10]) := by simp
        have hvfree : ∀ x ∈ v ++ [13], (x == (10 : Nat)) = false := by
          intro x hx
          rcases List.mem_append.mp hx with h1 | h1
          · exact hv x h1
          · rw [List.mem_singleton] at h1
            subst h1
            rfl
        rw [hre2, linesF_append_term (u ++ [10]) _ (by simp),
          linesF_term (v ++ [13]) hvfree, stripLastCR_concat13]
    case neg =>
      have hbne : ¬ (0 < b.length ∧ b.getLast? = some 13) := by
        rintro ⟨hbpos, hb13⟩
        apply hC
        refine ⟨by omega, ?_⟩
        rw [← hbdec]
        have hidx : (b ++ [10]).length - 2 = b.length - 1 := by simp
        rw [hidx, List.getElem?_append_left (by omega),
          ← List.getLast?_eq_getElem?]
        exact hb13
      have htkb : s.take (s.length - 1) = b := by
        rw [← hbdec]
        have hidx : (b ++ [10]).length - 1 = b.length := by simp
        rw [hidx]
        exact List.take_left' rfl
      have hlen1 : s.length - 1 = b.length := by omega
      have hstep : linesNextBack s =
          some (b.drop (scanBackLF b b.length),
            b.take (scanBackLF b b.length)) := by
        unfold linesNextBack
        rw [if_neg hemp]
        simp only [if_pos hL, if_neg hC]
        rw [htkb, hlen1]
      rw [hstep] at h
      simp only [Option.some.injEq, Prod.mk.injEq] at h
      obtain ⟨rfl, rfl⟩ := h
      cases hrf : rfindIdx? (fun c => c == (10 : Nat)) b with
      | none =>
        have hfree := rfindIdx?_none _ _ hrf
        have hscan : scanBackLF b b.length = 0 := scanBackLF_noLF b hfree
        rw [hscan]
        simp only [List.drop_zero, List.take_zero, linesF_nil, List.nil_append]
        rw [← hbdec, linesF_term b hfree]
        by_cases hbn : b = []
        · rw [hbn]
          rfl
        · rw [stripLastCR_of_ne b fun hcon =>
            hbne ⟨List.length_pos.mpr hbn, hcon⟩]
      | some i =>
        obtain ⟨u, z, v, hdec2, hulen, hpz, hv⟩ :=
          rfindIdx?_some_decomp _ _ i hrf
        have hz : z = 10 := by simpa using hpz
        subst hz
        have hscan : scanBackLF b b.length = u.length + 1 := by
          rw [hdec2]
          exact scanBackLF_decomp u v hv
        have hdropt : b.drop (u.length + 1) = v := by
          rw [hdec2]
          have hre : u ++ (10 : Nat) :: v = (u ++ [10]) ++ v := by simp
          rw [hre, List.drop_left' (by simp)]
        have htaket : b.take (u.length + 1) = u ++ [10] := by
          rw [hdec2]
          have hre : u ++ (10 : Nat) :: v = (u ++ [10]) ++ v := by simp
          rw [hre, List.take_left' (by simp)]
        have hstrip : stripLastCR v = v := by
          by_cases hvn : v = []
          · rw [hvn]
            rfl
          · apply stripLastCR_of_ne
            intro hcon
            apply hbne
            constructor
            · rw [hdec2]
              simp
            · rw [hdec2, List.getLast?_append]
              have hvl : ((10 : Nat) :: v).getLast? = some 13 := by
                rw [List.getLast?_cons, hcon]
                cases v with
                | nil => exact absurd rfl hvn
                | cons _ _ => rfl
              rw [hvl]
              rfl
        rw [hscan, hdropt, htaket, ← hbdec, hdec2]
        have hre2 : (u ++ (10 : Nat) :: v) ++ [10] =
            (u ++ [10]) ++ (v ++ [10]) := by simp
        rw [hre2, linesF_append_term (u ++ [10]) _ (by simp),
          linesF_term v hv, hstrip]

theorem linesNextBack_progress (s : List Nat) (h : linesF s ≠ []) :
    ∃ a s', linesNextBack s = some (a, s') := by
  have hne : s ≠ [] := by
    intro hc
    rw [hc, linesF_nil] at h
    exact h rfl
  unfold linesNextBack
  rw [if_neg (by simpa using hne)]
  exact ⟨_, _, rfl⟩

/-- C8: for every separator and every input, independently consuming the
`Split` and `Lines` iterators from the front and the back is coherent: after
any interleaving of `next`／`next_back` calls, the front emissions, the still
pending elements, and the back emissions (reversed) concatenate to exactly
the forward sequence — so consumption until exhaustion emits each element of
the forward sequence exactly once — and pure backward consumption emits
exactly the reverse of the forward sequence. -/
theorem split_lines_bidirectional :
    (∀ (sep : Nat) (s : List Nat) (ds : List Bool),
      (runDirs splitNext splitNextBack ds (SplitSt.mk sep false s)).1 ++
        pendingS
          (runDirs splitNext splitNextBack ds (SplitSt.mk sep false s)).2.2 ++
        (runDirs splitNext splitNextBack ds
          (SplitSt.mk sep false s)).2.1.reverse =
        splitF sep s) ∧
    (∀ (sep : Nat) (s : List Nat) (ds : List Bool),
      pendingS
          (runDirs splitNext splitNextBack ds (SplitSt.mk sep false s)).2.2 =
        [] →
      (runDirs splitNext splitNextBack ds (SplitSt.mk sep false s)).1 ++
        (runDirs splitNext splitNextBack ds
          (SplitSt.mk sep false s)).2.1.reverse =
        splitF sep s) ∧
    (∀ (sep : Nat) (s : List Nat),
      (runDirs splitNext splitNextBack
        (List.replicate (splitF sep s).length false)
        (SplitSt.mk sep false s)).2.1.reverse = splitF sep s) ∧
    (∀ (s : List Nat) (ds : List Bool),
      (runDirs linesNext linesNextBack ds s).1 ++
        linesF (runDirs linesNext linesNextBack ds s).2.2 ++
        (runDirs linesNext linesNextBack ds s).2.1.reverse = linesF s) ∧
    (∀ (s : List Nat) (ds : List Bool),
      linesF (runDirs linesNext linesNextBack ds s).2.2 = [] →
      (runDirs linesNext linesNextBack ds s).1 ++
        (runDirs linesNext linesNextBack ds s).2.1.reverse = linesF s) ∧
    (∀ s : List Nat,
      (runDirs linesNext linesNextBack
        (List.replicate (linesF s).length false) s).2.1.reverse = linesF s) := by
  have hsplit : ∀ (sep : Nat) (s : List Nat) (ds : List Bool),
      (runDirs splitNext splitNextBack ds (SplitSt.mk sep false s)).1 ++
        pendingS
          (runDirs splitNext splitNextBack ds (SplitSt.mk sep false s)).2.2 ++
        (runDirs splitNext splitNextBack ds
          (SplitSt.mk sep false s)).2.1.reverse =
        splitF sep s := by
    intro sep s ds
    have h := runDirs_invariant splitNext splitNextBack pendingS
      splitNext_some splitNextBack_some ds (SplitSt.mk sep false s)
    rw [h]
    simp [pendingS]
  have hlines : ∀ (s : List Nat) (ds : List Bool),
      (runDirs linesNext linesNextBack ds s).1 ++
        linesF (runDirs linesNext linesNextBack ds s).2.2 ++
        (runDirs linesNext linesNextBack ds s).2.1.reverse = linesF s :=
    fun s ds => runDirs_invariant linesNext linesNextBack linesF
      linesF_eq_some linesNextBack_some ds s
  refine ⟨hsplit, ?_, ?_, hlines, ?_, ?_⟩
  · intro sep s ds hfin
    have h := hsplit sep s ds
    rw [hfin] at h
    simpa using h
  · intro sep s
    have h := runDirs_backward splitNext splitNextBack pendingS
      splitNextBack_some splitNextBack_progress (splitF sep s).length
      (SplitSt.mk sep false s) (by simp [pendingS])
    rw [h.2.2]
    simp [pendingS]
  · intro s ds hfin
    have h := hlines s ds
    rw [hfin] at h
    simpa using h
  · intro s
    exact (runDirs_backward linesNext linesNextBack linesF
      linesNextBack_some linesNextBack_progress (linesF s).length s rfl).2.2

/-- Witness for C8: mixed front／back consumption of a concrete split
iterator, run to exhaustion, reproduces the forward sequence. -/
theorem split_lines_bidirectional_witness :
    (runDirs splitNext splitNextBack [true, false]
        (SplitSt.mk 44 false [49, 44, 50])).1 ++
      (runDirs splitNext splitNextBack [true, false]
        (SplitSt.mk 44 false [49, 44, 50])).2.1.reverse =
      splitF 44 [49, 44, 50] :=
  split_lines_bidirectional.2.1 44 [49, 44, 50] [true, false] (by decide)

end RustAscii
